import Mathlib

/-!
Shallow embedding of the BPE vocabulary builder and tokenizer in
`hindi_tokenizer.py` (class `HindiTokenizer`), together with proofs of the
specification's claims about it.

Conventions of the embedding:
* A surface string is a `List Char` (`Tok`).
* An encoded word is a `List Nat` of UTF-8 byte values (`Word`), as produced
  by `convert_to_utf8`.
* The Python `Counter` built by `get_pairs` is an association list kept in
  insertion order: incrementing an existing key keeps its position, a new key
  is appended at the end (CPython dicts preserve insertion order).
* `self.vocab` is a Python set holding both strings (special tokens and
  characters) and raw integers (ids added by `build_vocabulary`); it is
  modelled as a duplicate-free list of `Tok ⊕ Nat` in insertion order.
* Fallible operations (`str.startswith` applied to an `int`, dictionary
  key errors) return `Except Unit`.
-/

namespace HindiTok

abbrev Tok := List Char
abbrev Word := List Nat
abbrev Pair := Nat × Nat
abbrev Counter := List (Pair × Nat)

/-- Total number of symbol positions in the encoded corpus:
`sum(len(t) for t in self.encoded_tokens)`. -/
def totalLen (ws : List Word) : Nat := (ws.map List.length).sum

/-- The stream of adjacent pairs of one encoded word, in position order
(`(encoded_token[i], encoded_token[i+1])` for `i = 0 .. len-2`). -/
def wordPairs (w : Word) : List Pair := w.zip w.tail

/-- `pairs[pair] += 1` on an insertion-ordered counter: an existing key is
incremented in place, a missing key is appended with count 1. -/
def counterAdd : Counter → Pair → Counter
  | [], p => [(p, 1)]
  | (q, n) :: rest, p => if q = p then (q, n + 1) :: rest else (q, n) :: counterAdd rest p

/-- Build a counter from a stream of pairs. -/
def counterOf (ps : List Pair) : Counter := ps.foldl counterAdd []

/-- `HindiTokenizer.get_pairs`: count all adjacent pairs over all encoded
words (words shorter than two symbols produce no pairs). -/
def get_pairs (ws : List Word) : Counter :=
  ws.foldl (fun c w => (wordPairs w).foldl counterAdd c) []

/-- Count stored for a pair (0 when absent). -/
def lookupCount : Counter → Pair → Nat
  | [], _ => 0
  | (q, n) :: rest, p => if q = p then n else lookupCount rest p

/-- `Counter.most_common(1)`: the entry with the highest count; on ties the
entry that was inserted first (CPython `heapq.nlargest` is equivalent to a
stable descending sort). -/
def mostCommon : Counter → Option (Pair × Nat)
  | [] => none
  | e :: rest =>
    match mostCommon rest with
    | none => some e
    | some f => if e.2 < f.2 then some f else some e

/-- The rewriting scan of `HindiTokenizer.merge_pair` on one encoded word:
left to right, on a match of `(a, b)` emit `n` and advance two positions,
otherwise copy one element and advance one. -/
def mergeWord (a b n : Nat) : Word → Word
  | x :: y :: rest =>
    if x = a ∧ y = b then n :: mergeWord a b n rest
    else x :: mergeWord a b n (y :: rest)
  | [x] => [x]
  | [] => []

/-- Number of replacements the same scan performs on one word. -/
def mergeMatches (a b : Nat) : Word → Nat
  | x :: y :: rest =>
    if x = a ∧ y = b then mergeMatches a b rest + 1
    else mergeMatches a b (y :: rest)
  | [_] => 0
  | [] => 0

/-- Total number of replacements over the whole corpus. -/
def totalMatches (a b : Nat) (ws : List Word) : Nat :=
  (ws.map (mergeMatches a b)).sum

/-- `HindiTokenizer.merge_pair`: rewrite every encoded word, return whether
any replacement happened together with the new corpus (the corpus is left
untouched when no replacement happened). -/
def merge_pair (a b n : Nat) (ws : List Word) : Bool × List Word :=
  let changed := ws.any fun w => decide (0 < mergeMatches a b w)
  (changed, if changed then ws.map (mergeWord a b n) else ws)

/-- The `token_to_id` / `id_to_token` / `next_id` trio of the tokenizer. -/
structure SymTab where
  token_to_id : List (Tok × Nat)
  id_to_token : List (Nat × Tok)
  next_id : Nat
deriving DecidableEq, Repr

/-- The mutable state of `HindiTokenizer` that training reads and writes:
the encoded corpus, the `vocab` set (strings and raw merge ids, in insertion
order) and the symbol table. -/
structure TState where
  words : List Word
  vocab : List (Tok ⊕ Nat)
  table : SymTab
deriving DecidableEq, Repr

/-- First-key association-list lookup (Python dict `d[k]` / `k in d`). -/
def lookupA {α β : Type} [DecidableEq α] : List (α × β) → α → Option β
  | [], _ => none
  | (a, b) :: rest, q => if a = q then some b else lookupA rest q

/-- Membership test in the `vocab` set. -/
def vMem (v : List (Tok ⊕ Nat)) (s : Tok ⊕ Nat) : Bool :=
  v.any fun x => decide (x = s)

/-- Python `set.add`: append the element only when it is absent. -/
def vInsert (v : List (Tok ⊕ Nat)) (s : Tok ⊕ Nat) : List (Tok ⊕ Nat) :=
  if vMem v s then v else v ++ [s]

/-- `HindiTokenizer.add_token`: when the token is new, record both directions
of the mapping under `next_id`, bump `next_id` and add the token to the
`vocab` set; otherwise leave the state unchanged. -/
def add_token (st : TState) (t : Tok) : TState :=
  match lookupA st.table.token_to_id t with
  | some _ => st
  | none =>
    { st with
      vocab := vInsert st.vocab (Sum.inl t)
      table :=
        { token_to_id := st.table.token_to_id ++ [(t, st.table.next_id)]
          id_to_token := st.table.id_to_token ++ [(st.table.next_id, t)]
          next_id := st.table.next_id + 1 } }

/-- The `while len(self.vocab) < self.vocab_size` loop of
`HindiTokenizer.build_vocabulary`, with explicit fuel standing for the
unbounded `while` (the loop is proved to stabilise once the fuel exceeds the
total corpus length).  One iteration: count pairs, stop when there are none,
otherwise select the most common pair, mint `new_id = len(vocab) +
initial_vocab_size`, attempt the merge and add `new_id` to the `vocab` set
exactly when the merge reported a change. -/
def bpeLoop (target V0 : Nat) : Nat → TState → TState
  | 0, st => st
  | fuel + 1, st =>
    if st.vocab.length < target then
      match mostCommon (get_pairs st.words) with
      | none => st
      | some e =>
        let newId := st.vocab.length + V0
        let r := merge_pair e.1.1 e.1.2 newId st.words
        if r.1 then
          bpeLoop target V0 fuel
            { st with words := r.2, vocab := vInsert st.vocab (Sum.inr newId) }
        else
          bpeLoop target V0 fuel st
    else st

/-- `HindiTokenizer.build_vocabulary`: run the training loop to completion
(the chosen fuel is sufficient, as proved below). -/
def build_vocabulary (target V0 : Nat) (st : TState) : TState :=
  bpeLoop target V0 (totalLen st.words + 1) st

/-- Line 38 of the source: the loop bound is the hard-coded 50000 minus the
initial vocabulary size. -/
def adjustedVocabSize (initial_vocab_size : Nat) : Nat :=
  50000 - initial_vocab_size

/-- `text[current_pos:].startswith(token)`. -/
def startsWith : Tok → List Char → Bool
  | [], _ => true
  | _ :: _, [] => false
  | a :: as, b :: bs => decide (a = b) && startsWith as bs

/-- Surface length of the current best candidate (`longest_length`,
initially 0). -/
def bestLen : Option Tok → Nat
  | none => 0
  | some t => t.length

/-- The `for token in self.vocab` scan of `HindiTokenizer.tokenize`: keep the
strictly longest token whose surface string starts the remaining input.
Python evaluates `text[current_pos:].startswith(token)` on every element of
the set, so meeting a raw integer (added by `build_vocabulary`) raises a
`TypeError`, modelled as `Except.error ()`. -/
def scanLongest (rem : List Char) : List (Tok ⊕ Nat) → Option Tok → Except Unit (Option Tok)
  | [], best => .ok best
  | Sum.inr _ :: _, _ => .error ()
  | Sum.inl tok :: vs, best =>
    scanLongest rem vs
      (if startsWith tok rem && decide (bestLen best < tok.length) then some tok else best)

theorem scanLongest_pos (rem : List Char) :
    ∀ (vs : List (Tok ⊕ Nat)) (best : Option Tok), (∀ t, best = some t → 0 < t.length) →
      ∀ tok, scanLongest rem vs best = .ok (some tok) → 0 < tok.length := by
  intro vs
  induction vs with
  | nil =>
    intro best hb tok h
    simp only [scanLongest] at h
    exact hb tok (by injection h)
  | cons s vs ih =>
    intro best hb tok h
    cases s with
    | inr k => simp [scanLongest] at h
    | inl t =>
      simp only [scanLongest] at h
      refine ih _ ?_ tok h
      intro u hu
      by_cases hc : startsWith t rem && decide (bestLen best < t.length)
      · rw [if_pos hc] at hu
        cases hu
        have hlen : bestLen best < t.length := by
          simpa [decide_eq_true_eq] using And.right (by simpa using hc)
        omega
      · rw [if_neg hc] at hu
        exact hb u hu

/-- The surface string `'<unk>'`. -/
def unkTok : Tok := ['<', 'u', 'n', 'k', '>']

/-- `HindiTokenizer.tokenize`: while input remains, find the longest matching
vocabulary entry; emit its id and advance by its length, or emit the id of
`<unk>` and advance by one.  Dictionary misses and the `TypeError` raised by
`startswith` on an integer vocabulary element are `Except.error`. -/
def tokenize (vocab : List (Tok ⊕ Nat)) (t2i : List (Tok × Nat)) : List Char → Except Unit (List Nat)
  | [] => .ok []
  | c :: rest =>
    match h : scanLongest (c :: rest) vocab none with
    | .error _ => .error ()
    | .ok (some tok) =>
      match lookupA t2i tok with
      | none => .error ()
      | some i =>
        match tokenize vocab t2i ((c :: rest).drop tok.length) with
        | .error e => .error e
        | .ok ids => .ok (i :: ids)
    | .ok none =>
      match lookupA t2i unkTok with
      | none => .error ()
      | some u =>
        match tokenize vocab t2i rest with
        | .error e => .error e
        | .ok ids => .ok (u :: ids)
termination_by text => text.length
decreasing_by
  · have hp : 0 < tok.length :=
      scanLongest_pos (c :: rest) vocab none (by intro t ht; cases ht) tok h
    simp only [List.length_drop, List.length_cons]
    omega
  · simp

/-- The statistics record returned by `HindiTokenizer.get_stats`. -/
structure Stats where
  initial_tokens : Nat
  initial_vocab : Nat
  final_tokens : Nat
  final_vocab : Nat
  compression_ratio : ℚ

/-- `HindiTokenizer.get_stats`: the compression ratio is
`initial_tokens_length / final_tokens` when `final_tokens > 0` and `0`
otherwise (real division modelled exactly over `ℚ`). -/
def get_stats (initial_tokens_length initial_vocab_size : Nat) (st : TState) : Stats :=
  let final_tokens := totalLen st.words
  { initial_tokens := initial_tokens_length
    initial_vocab := initial_vocab_size
    final_tokens := final_tokens
    final_vocab := st.vocab.length + initial_vocab_size
    compression_ratio :=
      if 0 < final_tokens then (initial_tokens_length : ℚ) / (final_tokens : ℚ) else 0 }

/-! ### A concrete training run

The corpus `"ab ab"`: after cleaning, the unique characters are `a` and `b`,
so the initial symbol table holds the six special tokens (ids 0–5) followed
by `a ↦ 6` and `b ↦ 7`, and `initial_vocab_size = 8`.  `convert_to_utf8`
encodes each word by its UTF-8 bytes, giving `[[97, 98], [97, 98]]`. -/

/-- The six special tokens, in registration order. -/
def specialToks : List Tok :=
  [['<', 'p', 'a', 'd', '>'], ['<', 'e', 'o', 's', '>'], ['<', 'b', 'o', 's', '>'],
   ['<', 'u', 'n', 'k', '>'], ['<', 'n', 'u', 'm', '>'], ['<', 'e', 'n', 'g', '>']]

/-- The empty tokenizer state, before any `add_token`. -/
def st0 : TState := ⟨[], [], ⟨[], [], 0⟩⟩

/-- Register a list of tokens in order (the loops of the vocabulary
initialisation). -/
def addAll (ts : List Tok) : TState := ts.foldl add_token st0

/-- State after vocabulary initialisation on the corpus `"ab ab"`, with the
encoded words attached. -/
def demoInit : TState :=
  { addAll (specialToks ++ [['a'], ['b']]) with words := [[97, 98], [97, 98]] }

/-- The state after `build_vocabulary` on the demo corpus, with the target
`50000 - 8` computed on line 38 of the source. -/
def demoTrained : TState :=
  build_vocabulary (adjustedVocabSize 8) 8 demoInit

/-! ### Specification-level vocabulary used by the claim statements -/

/-- The keys of a counter, in insertion order. -/
def keys (c : Counter) : List Pair := c.map Prod.fst

/-- All adjacent pairs of the corpus in scan order: first word index, then
position inside the word. -/
def pairStream (ws : List Word) : List Pair := (ws.map wordPairs).flatten

/-- The number of positions `i` of `w` with `w[i] = a` and `w[i+1] = b`. -/
def adjCount (w : Word) (a b : Nat) : Nat :=
  (List.range (w.length - 1)).countP fun i =>
    decide (w.getD i 0 = a) && decide (w.getD (i + 1) 0 = b)

/-- Index of the first occurrence of a pair in the scan stream (length of the
list when absent). -/
def firstIdx : List Pair → Pair → Nat
  | [], _ => 0
  | q :: rest, p => if q = p then 0 else firstIdx rest p + 1

/-- Declarative reading of `most_common(1)` on an insertion-ordered counter:
the entry is in the counter, every entry before it has a strictly smaller
count and every entry after it has a count at most as large — i.e. it is the
first entry holding the maximum. -/
def IsFirstMax (c : Counter) (e : Pair × Nat) : Prop :=
  ∃ l₁ l₂, c = l₁ ++ e :: l₂ ∧ (∀ f ∈ l₁, f.2 < e.2) ∧ ∀ f ∈ l₂, f.2 ≤ e.2

/-- `symBound bound s` holds when `s` is a string, or a raw id below
`bound`. -/
def symBound (bound : Nat) : Tok ⊕ Nat → Bool
  | .inl _ => true
  | .inr k => decide (k < bound)

/-- The invariant training maintains on the `vocab` set: no duplicates, and
every raw merge id in it is below `len(vocab) + initial_vocab_size` (so the
next minted id is fresh). -/
def VocabOK (V0 : Nat) (v : List (Tok ⊕ Nat)) : Prop :=
  v.Nodup ∧ v.all (symBound (v.length + V0)) = true

/-- Invariant of the symbol table: `id_to_token` is the flipped
`token_to_id`, `next_id` counts the entries, ids are `0, 1, 2, …` in
insertion order, and no token occurs twice. -/
def TabOK (tb : SymTab) : Prop :=
  tb.id_to_token = tb.token_to_id.map (fun e => (e.2, e.1))
    ∧ tb.next_id = tb.token_to_id.length
    ∧ tb.token_to_id.map Prod.snd = List.range tb.token_to_id.length
    ∧ (tb.token_to_id.map Prod.fst).Nodup

/-! ### Counter lemmas -/

theorem lookupCount_counterAdd (c : Counter) (p q : Pair) :
    lookupCount (counterAdd c p) q = lookupCount c q + if p = q then 1 else 0 := by
  induction c with
  | nil =>
    by_cases h : p = q <;> simp [counterAdd, lookupCount, h]
  | cons e rest ih =>
    obtain ⟨r, n⟩ := e
    by_cases h1 : r = p
    · subst h1
      by_cases h2 : r = q <;> simp [counterAdd, lookupCount, h2]
    · by_cases h2 : r = q
      · subst h2
        have hpq : ¬p = r := fun hh => h1 hh.symm
        simp [counterAdd, lookupCount, h1, hpq]
      · simp [counterAdd, lookupCount, h1, h2, ih]

theorem lookupCount_foldl (ps : List Pair) (c : Counter) (q : Pair) :
    lookupCount (ps.foldl counterAdd c) q
      = lookupCount c q + ps.countP (fun x => decide (x = q)) := by
  induction ps generalizing c with
  | nil => simp
  | cons p ps ih =>
    simp only [List.foldl_cons, ih, lookupCount_counterAdd, List.countP_cons]
    by_cases h : p = q <;> simp [h] <;> omega

theorem mem_keys_counterAdd (c : Counter) (p q : Pair) :
    q ∈ keys (counterAdd c p) ↔ q ∈ keys c ∨ q = p := by
  induction c with
  | nil => simp [counterAdd, keys]
  | cons e rest ih =>
    obtain ⟨r, n⟩ := e
    simp only [counterAdd]
    split_ifs with h1
    · subst h1
      simp only [keys, List.map_cons, List.mem_cons] at *
      tauto
    · simp only [keys, List.map_cons, List.mem_cons] at *
      tauto

theorem mem_keys_foldl (ps : List Pair) (c : Counter) (q : Pair) :
    q ∈ keys (ps.foldl counterAdd c) ↔ q ∈ keys c ∨ q ∈ ps := by
  induction ps generalizing c with
  | nil => simp
  | cons p ps ih =>
    simp only [List.foldl_cons, ih, mem_keys_counterAdd, List.mem_cons]
    tauto

theorem get_pairs_eq (ws : List Word) :
    get_pairs ws = counterOf (pairStream ws) := by
  suffices h : ∀ c, ws.foldl (fun c w => (wordPairs w).foldl counterAdd c) c
      = (pairStream ws).foldl counterAdd c from h []
  induction ws with
  | nil => intro c; simp [pairStream]
  | cons w ws ih =>
    intro c
    have hps : pairStream (w :: ws) = wordPairs w ++ pairStream ws := by
      simp [pairStream]
    rw [List.foldl_cons, hps, List.foldl_append]
    exact ih _

theorem lookupCount_get_pairs (ws : List Word) (q : Pair) :
    lookupCount (get_pairs ws) q = (pairStream ws).countP (fun x => decide (x = q)) := by
  rw [get_pairs_eq, counterOf, lookupCount_foldl]
  simp [lookupCount]

theorem mem_keys_get_pairs (ws : List Word) (q : Pair) :
    q ∈ keys (get_pairs ws) ↔ q ∈ pairStream ws := by
  rw [get_pairs_eq, counterOf, mem_keys_foldl]
  simp [keys]

/-! ### `mostCommon` lemmas -/

theorem mostCommon_none_iff (c : Counter) : mostCommon c = none ↔ c = [] := by
  cases c with
  | nil => simp [mostCommon]
  | cons e rest =>
    simp only [mostCommon]
    cases mostCommon rest with
    | none => simp
    | some f => by_cases h : e.2 < f.2 <;> simp [h]

theorem mostCommon_mem (c : Counter) (e : Pair × Nat) (h : mostCommon c = some e) : e ∈ c := by
  induction c with
  | nil => simp [mostCommon] at h
  | cons f rest ih =>
    rw [mostCommon] at h
    split at h
    · injection h with h
      simp [h]
    · rename_i g hg
      split_ifs at h with hc
      · injection h with h
        subst h
        exact List.mem_cons_of_mem _ (ih hg)
      · injection h with h
        simp [h]

theorem mostCommon_isFirstMax (c : Counter) (e : Pair × Nat) :
    mostCommon c = some e ↔ IsFirstMax c e := by
  constructor
  · intro h
    induction c generalizing e with
    | nil => simp [mostCommon] at h
    | cons f rest ih =>
      rw [mostCommon] at h
      split at h
      · rename_i hr
        injection h with h
        subst h
        have hnil : rest = [] := (mostCommon_none_iff rest).mp hr
        subst hnil
        exact ⟨[], [], rfl, by simp, by simp⟩
      · rename_i g hr
        split_ifs at h with hc
        · injection h with h
          subst h
          obtain ⟨l₁, l₂, heq, h₁, h₂⟩ := ih _ hr
          refine ⟨f :: l₁, l₂, by rw [heq]; simp, ?_, h₂⟩
          intro x hx
          rcases List.mem_cons.mp hx with hx | hx
          · subst hx; exact hc
          · exact h₁ x hx
        · injection h with h
          subst h
          obtain ⟨l₁, l₂, heq, h₁, h₂⟩ := ih _ hr
          refine ⟨[], rest, rfl, by simp, ?_⟩
          have hgf : g.2 ≤ f.2 := not_lt.mp hc
          intro x hx
          rw [heq] at hx
          rcases List.mem_append.mp hx with hx | hx
          · exact le_of_lt (lt_of_lt_of_le (h₁ x hx) hgf)
          · rcases List.mem_cons.mp hx with hx | hx
            · subst hx; exact hgf
            · exact le_trans (h₂ x hx) hgf
  · intro h
    induction c generalizing e with
    | nil =>
      obtain ⟨l₁, l₂, heq, -, -⟩ := h
      exact absurd heq (by simp)
    | cons f rest ih =>
      obtain ⟨l₁, l₂, heq, h₁, h₂⟩ := h
      cases l₁ with
      | nil =>
        simp only [List.nil_append] at heq
        injection heq with hf hrest
        subst hf
        subst hrest
        rw [mostCommon]
        cases hr : mostCommon rest with
        | none => rfl
        | some g =>
          have hg : g ∈ rest := mostCommon_mem rest g hr
          have hle : g.2 ≤ f.2 := h₂ g hg
          show (if f.2 < g.2 then some g else some f) = some f
          rw [if_neg (by omega)]
      | cons a l₁ =>
        simp only [List.cons_append] at heq
        injection heq with hf hrest
        subst hf
        have hrec : mostCommon rest = some e := by
          refine ih e ⟨l₁, l₂, hrest, ?_, h₂⟩
          intro x hx
          exact h₁ x (List.mem_cons_of_mem _ hx)
        rw [mostCommon]
        cases hr : mostCommon rest with
        | none =>
          rw [hr] at hrec
          cases hrec
        | some g =>
          rw [hr] at hrec
          injection hrec with hge
          have hlt : f.2 < g.2 := by
            rw [hge]
            exact h₁ f (List.mem_cons_self _ _)
          show (if f.2 < g.2 then some g else some f) = some e
          rw [if_pos hlt, hge]

/-! ### Merge lemmas -/

theorem wordPairs_cons_cons (x y : Nat) (t : Word) :
    wordPairs (x :: y :: t) = (x, y) :: wordPairs (y :: t) := rfl

theorem mergeMatches_pos_iff (a b : Nat) (w : Word) :
    0 < mergeMatches a b w ↔ (a, b) ∈ wordPairs w := by
  induction w using mergeMatches.induct a b with
  | case1 x y rest h ih =>
    obtain ⟨hx, hy⟩ := h
    subst hx
    subst hy
    simp [mergeMatches, wordPairs_cons_cons]
  | case2 x y rest h ih =>
    rw [mergeMatches, if_neg h, wordPairs_cons_cons, List.mem_cons, ih]
    constructor
    · exact Or.inr
    · rintro (hq | hq)
      · cases hq
        exact absurd ⟨rfl, rfl⟩ h
      · exact hq
  | case3 x => simp [mergeMatches, wordPairs]
  | case4 => simp [mergeMatches, wordPairs]

theorem mergeWord_length (a b n : Nat) (w : Word) :
    (mergeWord a b n w).length + mergeMatches a b w = w.length := by
  induction w using mergeMatches.induct a b with
  | case1 x y rest h ih =>
    simp only [mergeWord, mergeMatches, if_pos h, List.length_cons]
    omega
  | case2 x y rest h ih =>
    simp only [mergeWord, mergeMatches, if_neg h, List.length_cons]
    simp only [List.length_cons] at ih
    omega
  | case3 x => rfl
  | case4 => rfl

theorem mergeWord_eq_self (a b n : Nat) (w : Word) :
    mergeMatches a b w = 0 → mergeWord a b n w = w := by
  induction w using mergeMatches.induct a b with
  | case1 x y rest hc ih =>
    intro h
    rw [mergeMatches, if_pos hc] at h
    omega
  | case2 x y rest hc ih =>
    intro h
    rw [mergeMatches, if_neg hc] at h
    simp only [mergeWord, if_neg hc]
    rw [ih h]
  | case3 x => intro _; rfl
  | case4 => intro _; rfl

theorem mergeWord_head (a b n x : Nat) (l : Word) :
    (∃ t, mergeWord a b n (x :: l) = n :: t) ∨ ∃ t, mergeWord a b n (x :: l) = x :: t := by
  cases l with
  | nil => exact Or.inr ⟨[], rfl⟩
  | cons y rest =>
    by_cases hc : x = a ∧ y = b
    · exact Or.inl ⟨mergeWord a b n rest, by simp [mergeWord, hc]⟩
    · exact Or.inr ⟨mergeWord a b n (y :: rest), by simp [mergeWord, hc]⟩

theorem mergeWord_no_pair (a b n : Nat) (ha : n ≠ a) (hb : n ≠ b) (w : Word) :
    (a, b) ∉ wordPairs (mergeWord a b n w) := by
  induction w using mergeMatches.induct a b with
  | case1 x y rest hc ih =>
    simp only [mergeWord, if_pos hc]
    cases hm : mergeWord a b n rest with
    | nil => simp [wordPairs]
    | cons m t =>
      rw [hm] at ih
      rw [wordPairs_cons_cons]
      intro hmem
      rcases List.mem_cons.mp hmem with hq | hq
      · cases hq
        exact ha rfl
      · exact ih hq
  | case2 x y rest hc ih =>
    simp only [mergeWord, if_neg hc]
    rcases mergeWord_head a b n y rest with ⟨t, ht⟩ | ⟨t, ht⟩
    · rw [ht] at ih ⊢
      rw [wordPairs_cons_cons]
      intro hmem
      rcases List.mem_cons.mp hmem with hq | hq
      · cases hq
        exact hb rfl
      · exact ih hq
    · rw [ht] at ih ⊢
      rw [wordPairs_cons_cons]
      intro hmem
      rcases List.mem_cons.mp hmem with hq | hq
      · cases hq
        exact absurd ⟨rfl, rfl⟩ hc
      · exact ih hq
  | case3 x => simp [mergeWord, wordPairs]
  | case4 => simp [mergeWord, wordPairs]

theorem merge_pair_fst_iff (a b n : Nat) (ws : List Word) :
    (merge_pair a b n ws).1 = true ↔ ∃ w ∈ ws, (a, b) ∈ wordPairs w := by
  simp [merge_pair, List.any_eq_true, mergeMatches_pos_iff]

theorem merge_pair_snd_true (a b n : Nat) (ws : List Word)
    (h : (merge_pair a b n ws).1 = true) :
    (merge_pair a b n ws).2 = ws.map (mergeWord a b n) := by
  simp only [merge_pair] at h ⊢
  rw [if_pos h]

theorem merge_pair_snd_false (a b n : Nat) (ws : List Word)
    (h : (merge_pair a b n ws).1 = false) :
    (merge_pair a b n ws).2 = ws ∧ ws.map (mergeWord a b n) = ws := by
  have hall : ∀ w ∈ ws, mergeMatches a b w = 0 := by
    intro w hw
    by_contra hne
    have : (merge_pair a b n ws).1 = true :=
      (merge_pair_fst_iff a b n ws).mpr
        ⟨w, hw, (mergeMatches_pos_iff a b w).mp (Nat.pos_of_ne_zero hne)⟩
    rw [h] at this
    cases this
  constructor
  · simp only [merge_pair] at h ⊢
    rw [if_neg (by rw [h]; exact Bool.false_ne_true)]
  · have hid : ∀ w ∈ ws, mergeWord a b n w = id w := fun w hw =>
      mergeWord_eq_self a b n w (hall w hw)
    rw [List.map_congr_left hid, List.map_id]

theorem totalLen_merge (a b n : Nat) (ws : List Word) :
    totalLen (ws.map (mergeWord a b n)) + totalMatches a b ws = totalLen ws := by
  induction ws with
  | nil => rfl
  | cons w ws ih =>
    simp only [totalLen, totalMatches, List.map_cons, List.sum_cons] at *
    have hw := mergeWord_length a b n w
    omega

theorem totalMatches_pos (a b n : Nat) (ws : List Word)
    (h : (merge_pair a b n ws).1 = true) : 0 < totalMatches a b ws := by
  obtain ⟨w, hw, hp⟩ := (merge_pair_fst_iff a b n ws).mp h
  have hpos : 0 < mergeMatches a b w := (mergeMatches_pos_iff a b w).mpr hp
  have hle : mergeMatches a b w ≤ totalMatches a b ws := by
    unfold totalMatches
    exact List.single_le_sum (fun x _ => Nat.zero_le x) _ (List.mem_map_of_mem _ hw)
  omega

theorem merge_sel_true (ws : List Word) (e : Pair × Nat) (n : Nat)
    (h : mostCommon (get_pairs ws) = some e) :
    (merge_pair e.1.1 e.1.2 n ws).1 = true := by
  have hmem : e ∈ get_pairs ws := mostCommon_mem _ _ h
  have hkey : e.1 ∈ keys (get_pairs ws) := List.mem_map_of_mem _ hmem
  have hstream : e.1 ∈ pairStream ws := (mem_keys_get_pairs ws e.1).mp hkey
  rw [merge_pair_fst_iff]
  rw [pairStream, List.mem_flatten] at hstream
  obtain ⟨l, hl, hmem2⟩ := hstream
  obtain ⟨w, hw, rfl⟩ := List.mem_map.mp hl
  exact ⟨w, hw, by simpa using hmem2⟩

/-! ### `vocab` set lemmas -/

theorem vMem_iff (v : List (Tok ⊕ Nat)) (s : Tok ⊕ Nat) : vMem v s = true ↔ s ∈ v := by
  simp [vMem, List.any_eq_true]

theorem vInsert_not_mem (v : List (Tok ⊕ Nat)) (s : Tok ⊕ Nat) (h : s ∉ v) :
    vInsert v s = v ++ [s] := by
  rw [vInsert, if_neg fun hc => h ((vMem_iff v s).mp hc)]

theorem symBound_mono (b b' : Nat) (s : Tok ⊕ Nat) (hbb : b ≤ b')
    (h : symBound b s = true) : symBound b' s = true := by
  cases s with
  | inl t => rfl
  | inr k =>
    simp only [symBound, decide_eq_true_eq] at *
    omega

theorem vocabOK_fresh (V0 : Nat) (v : List (Tok ⊕ Nat)) (h : VocabOK V0 v) :
    Sum.inr (v.length + V0) ∉ v := by
  intro hmem
  have hall := h.2
  rw [List.all_eq_true] at hall
  have hb := hall _ hmem
  simp only [symBound, decide_eq_true_eq] at hb
  omega

theorem vocabOK_step (V0 : Nat) (v : List (Tok ⊕ Nat)) (h : VocabOK V0 v) :
    VocabOK V0 (vInsert v (Sum.inr (v.length + V0))) ∧
      (vInsert v (Sum.inr (v.length + V0))).length = v.length + 1 := by
  have hf := vocabOK_fresh V0 v h
  have hv : vInsert v (Sum.inr (v.length + V0)) = v ++ [Sum.inr (v.length + V0)] :=
    vInsert_not_mem _ _ hf
  have hall := h.2
  rw [List.all_eq_true] at hall
  refine ⟨⟨?_, ?_⟩, ?_⟩
  · rw [hv]
    simp [List.nodup_append, h.1, hf]
  · rw [hv, List.all_eq_true]
    intro s hs
    rcases List.mem_append.mp hs with hs | hs
    · exact symBound_mono _ _ s
        (by simp only [List.length_append, List.length_singleton]; omega) (hall s hs)
    · rcases List.mem_singleton.mp hs with rfl
      simp [symBound]
  · rw [hv]
    simp

/-! ### Training loop lemmas -/

theorem bpeLoop_exit_target (target V0 fuel : Nat) (st : TState)
    (h : ¬st.vocab.length < target) : bpeLoop target V0 fuel st = st := by
  cases fuel with
  | zero => rfl
  | succ f =>
    rw [bpeLoop, if_neg h]

theorem bpeLoop_exit_pairs (target V0 fuel : Nat) (st : TState)
    (h : mostCommon (get_pairs st.words) = none) : bpeLoop target V0 fuel st = st := by
  cases fuel with
  | zero => rfl
  | succ f =>
    rw [bpeLoop]
    split_ifs with hlt
    · rw [h]
    · rfl

theorem bpeLoop_table (target V0 fuel : Nat) (st : TState) :
    (bpeLoop target V0 fuel st).table = st.table := by
  induction fuel generalizing st with
  | zero => rfl
  | succ f ih =>
    rw [bpeLoop]
    split_ifs with hlt
    · cases hmc : mostCommon (get_pairs st.words) with
      | none => rfl
      | some e =>
        dsimp only
        split_ifs with hr
        · rw [ih]
        · rw [ih]
    · rfl

theorem bpeLoop_vocab (target V0 : Nat) :
    ∀ (fuel : Nat) (st : TState), VocabOK V0 st.vocab →
      (bpeLoop target V0 fuel st).vocab.length ≤ max st.vocab.length target ∧
        VocabOK V0 (bpeLoop target V0 fuel st).vocab := by
  intro fuel
  induction fuel with
  | zero =>
    intro st h
    exact ⟨le_max_left _ _, h⟩
  | succ f ih =>
    intro st h
    rw [bpeLoop]
    split_ifs with hlt
    · cases hmc : mostCommon (get_pairs st.words) with
      | none => exact ⟨le_max_left _ _, h⟩
      | some e =>
        dsimp only
        split_ifs with hr
        · have hstep := vocabOK_step V0 st.vocab h
          obtain ⟨hres, hok⟩ :=
            ih { st with
                  words := (merge_pair e.1.1 e.1.2 (st.vocab.length + V0) st.words).2,
                  vocab := vInsert st.vocab (Sum.inr (st.vocab.length + V0)) }
              hstep.1
          refine ⟨?_, hok⟩
          refine le_trans hres ?_
          simp only [hstep.2]
          have h1 : st.vocab.length + 1 ≤ target := hlt
          simp only [max_le_iff, le_max_iff]
          omega
        · exact ih st h
    · exact ⟨le_max_left _ _, h⟩

theorem bpeLoop_stable_step (target V0 : Nat) :
    ∀ (fuel : Nat) (st : TState), totalLen st.words < fuel →
      bpeLoop target V0 (fuel + 1) st = bpeLoop target V0 fuel st := by
  intro fuel
  induction fuel with
  | zero =>
    intro st h
    exact absurd h (Nat.not_lt_zero _)
  | succ f ih =>
    intro st h
    conv_lhs => rw [bpeLoop]
    conv_rhs => rw [bpeLoop]
    split_ifs with hlt
    · cases hmc : mostCommon (get_pairs st.words) with
      | none => rfl
      | some e =>
        dsimp only
        have hr : (merge_pair e.1.1 e.1.2 (st.vocab.length + V0) st.words).1 = true :=
          merge_sel_true st.words e _ hmc
        rw [if_pos hr, if_pos hr]
        apply ih
        have hsnd := merge_pair_snd_true _ _ _ _ hr
        have hlen := totalLen_merge e.1.1 e.1.2 (st.vocab.length + V0) st.words
        have hpos := totalMatches_pos _ _ _ _ hr
        dsimp only
        rw [hsnd]
        omega
    · rfl

theorem bpeLoop_stable (target V0 : Nat) (st : TState) :
    ∀ f₁ f₂ : Nat, totalLen st.words < f₁ → totalLen st.words < f₂ →
      bpeLoop target V0 f₁ st = bpeLoop target V0 f₂ st := by
  have key : ∀ f, totalLen st.words < f →
      bpeLoop target V0 f st = bpeLoop target V0 (totalLen st.words + 1) st := by
    intro f
    induction f with
    | zero => intro h; omega
    | succ f ih =>
      intro h
      by_cases hf : totalLen st.words < f
      · rw [bpeLoop_stable_step target V0 f st hf, ih hf]
      · have hEq : f = totalLen st.words := by omega
        rw [hEq]
  intro f₁ f₂ h₁ h₂
  rw [key f₁ h₁, key f₂ h₂]

/-! ### Pair-counting lemmas -/

theorem countP_range_succ_shift (n : Nat) (f : Nat → Bool) :
    (List.range (n + 1)).countP f
      = (if f 0 then 1 else 0) + (List.range n).countP (fun i => f (i + 1)) := by
  rw [List.range_succ_eq_map, List.countP_cons, List.countP_map]
  have hc : (f ∘ Nat.succ) = fun i => f (i + 1) := rfl
  rw [hc]
  omega

theorem wordPairs_count_adjCount (w : Word) (a b : Nat) :
    (wordPairs w).countP (fun q => decide (q = (a, b))) = adjCount w a b := by
  induction w with
  | nil => rfl
  | cons x w ih =>
    cases w with
    | nil => rfl
    | cons y t =>
      rw [wordPairs_cons_cons, List.countP_cons, ih]
      have hrange : (x :: y :: t : Word).length - 1 = t.length + 1 := by simp
      conv_rhs => rw [adjCount, hrange, countP_range_succ_shift]
      have hshift :
          (fun i => decide ((x :: y :: t : Word).getD (i + 1) 0 = a)
              && decide ((x :: y :: t : Word).getD (i + 1 + 1) 0 = b))
            = fun i => decide ((y :: t : Word).getD i 0 = a)
              && decide ((y :: t : Word).getD (i + 1) 0 = b) := by
        funext i
        simp [List.getD_cons_succ]
      rw [hshift]
      have hback : (List.range t.length).countP
            (fun i => decide ((y :: t : Word).getD i 0 = a)
              && decide ((y :: t : Word).getD (i + 1) 0 = b)) = adjCount (y :: t) a b := by
        rw [adjCount]
        simp
      rw [hback]
      have hzero : ((x :: y :: t : Word).getD 0 0 = x) ∧ ((x :: y :: t : Word).getD 1 0 = y) := by
        simp
      by_cases hx : x = a
      · by_cases hy : y = b
        · subst hx
          subst hy
          simp
          omega
        · have hne : ¬((x, y) = (a, b)) := by
            simp [Prod.ext_iff]
            intro _
            exact hy
          simp [hne, hy]
      · have hne : ¬((x, y) = (a, b)) := by
          simp [Prod.ext_iff]
          intro hc
          exact absurd hc hx
        simp [hne, hx]

theorem countP_pairStream (ws : List Word) (f : Pair → Bool) :
    (pairStream ws).countP f = (ws.map fun w => (wordPairs w).countP f).sum := by
  induction ws with
  | nil => rfl
  | cons w ws ih =>
    have hps : pairStream (w :: ws) = wordPairs w ++ pairStream ws := by
      simp [pairStream]
    rw [hps, List.countP_append, ih]
    simp

theorem lookupCount_get_pairs_adjCount (ws : List Word) (a b : Nat) :
    lookupCount (get_pairs ws) (a, b) = (ws.map fun w => adjCount w a b).sum := by
  rw [lookupCount_get_pairs, countP_pairStream]
  congr 1
  exact List.map_congr_left fun w _ => wordPairs_count_adjCount w a b

/-! ### Association-list lemmas -/

theorem lookupA_eq_none {α β : Type} [DecidableEq α] (l : List (α × β)) (a : α) :
    lookupA l a = none ↔ a ∉ l.map Prod.fst := by
  induction l with
  | nil => simp [lookupA]
  | cons e rest ih =>
    obtain ⟨x, y⟩ := e
    by_cases hx : x = a
    · subst hx
      simp [lookupA]
    · rw [lookupA, if_neg hx, ih]
      constructor
      · intro h
        simp only [List.map_cons, List.mem_cons]
        rintro (hc | hc)
        · exact hx hc.symm
        · exact h hc
      · intro h hc
        exact h (by simp only [List.map_cons, List.mem_cons]; exact Or.inr hc)

theorem lookupA_some_mem {α β : Type} [DecidableEq α] (l : List (α × β)) (a : α) (b : β)
    (h : lookupA l a = some b) : (a, b) ∈ l := by
  induction l with
  | nil => simp [lookupA] at h
  | cons e rest ih =>
    obtain ⟨x, y⟩ := e
    by_cases hx : x = a
    · subst hx
      rw [lookupA, if_pos rfl] at h
      injection h with h
      subst h
      exact List.mem_cons_self _ _
    · rw [lookupA, if_neg hx] at h
      exact List.mem_cons_of_mem _ (ih h)

theorem lookupA_eq_some_iff {α β : Type} [DecidableEq α] (l : List (α × β))
    (hnd : (l.map Prod.fst).Nodup) (a : α) (b : β) :
    lookupA l a = some b ↔ (a, b) ∈ l := by
  induction l with
  | nil => simp [lookupA]
  | cons e rest ih =>
    obtain ⟨x, y⟩ := e
    rw [List.map_cons, List.nodup_cons] at hnd
    by_cases hx : x = a
    · subst hx
      rw [lookupA, if_pos rfl]
      constructor
      · intro h
        injection h with h
        subst h
        exact List.mem_cons_self _ _
      · intro hmem
        rcases List.mem_cons.mp hmem with hq | hq
        · injection hq with h1 h2
          rw [h2]
        · exact absurd (List.mem_map_of_mem Prod.fst hq) hnd.1
    · rw [lookupA, if_neg hx, ih hnd.2]
      constructor
      · exact List.mem_cons_of_mem _
      · intro hmem
        rcases List.mem_cons.mp hmem with hq | hq
        · injection hq with h1 h2
          exact absurd h1.symm hx
        · exact hq

theorem lookupA_append_key {α β : Type} [DecidableEq α] (l : List (α × β)) (a : α) (b : β)
    (h : lookupA l a = none) : lookupA (l ++ [(a, b)]) a = some b := by
  induction l with
  | nil => simp [lookupA]
  | cons e rest ih =>
    obtain ⟨x, y⟩ := e
    by_cases hx : x = a
    · subst hx
      rw [lookupA, if_pos rfl] at h
      cases h
    · rw [lookupA, if_neg hx] at h
      rw [List.cons_append, lookupA, if_neg hx]
      exact ih h

/-! ### First-occurrence order of the counter keys -/

theorem keys_counterAdd (c : Counter) (p : Pair) :
    keys (counterAdd c p) = if p ∈ keys c then keys c else keys c ++ [p] := by
  induction c with
  | nil => simp [counterAdd, keys]
  | cons e rest ih =>
    obtain ⟨r, n⟩ := e
    have hkc : keys ((r, n) :: rest) = r :: keys rest := rfl
    by_cases hr : r = p
    · subst hr
      have hca : counterAdd ((r, n) :: rest) r = (r, n + 1) :: rest := by
        rw [counterAdd, if_pos rfl]
      rw [hca, if_pos (by rw [hkc]; exact List.mem_cons_self _ _)]
      rfl
    · have hca : counterAdd ((r, n) :: rest) p = (r, n) :: counterAdd rest p := by
        rw [counterAdd, if_neg hr]
      rw [hca]
      have hk2 : keys ((r, n) :: counterAdd rest p) = r :: keys (counterAdd rest p) := rfl
      rw [hk2, ih, hkc]
      have hne : ¬p = r := fun hc => hr hc.symm
      by_cases hp : p ∈ keys rest
      · rw [if_pos hp, if_pos (List.mem_cons.mpr (Or.inr hp))]
      · rw [if_neg hp, if_neg (by
          intro hc
          rcases List.mem_cons.mp hc with hc | hc
          · exact hne hc
          · exact hp hc)]
        rfl

theorem mem_keys_counterOf (ps : List Pair) (q : Pair) :
    q ∈ keys (counterOf ps) ↔ q ∈ ps := by
  rw [counterOf, mem_keys_foldl]
  simp [keys]

theorem firstIdx_append_of_mem (l₁ l₂ : List Pair) (p : Pair) (h : p ∈ l₁) :
    firstIdx (l₁ ++ l₂) p = firstIdx l₁ p := by
  induction l₁ with
  | nil => simp at h
  | cons q rest ih =>
    by_cases hq : q = p
    · simp [firstIdx, hq]
    · rcases List.mem_cons.mp h with hc | hc
      · exact absurd hc.symm hq
      · rw [List.cons_append, firstIdx, if_neg hq, ih hc, firstIdx, if_neg hq]

theorem firstIdx_append_of_not_mem (l₁ l₂ : List Pair) (p : Pair) (h : p ∉ l₁) :
    firstIdx (l₁ ++ l₂) p = l₁.length + firstIdx l₂ p := by
  induction l₁ with
  | nil => simp
  | cons q rest ih =>
    have hq : ¬q = p := fun hc => h (hc ▸ List.mem_cons_self _ _)
    rw [List.cons_append, firstIdx, if_neg hq,
      ih fun hc => h (List.mem_cons_of_mem _ hc), List.length_cons]
    omega

theorem firstIdx_lt_length (l : List Pair) (p : Pair) (h : p ∈ l) :
    firstIdx l p < l.length := by
  induction l with
  | nil => simp at h
  | cons q rest ih =>
    by_cases hq : q = p
    · simp [firstIdx, hq]
    · rcases List.mem_cons.mp h with hc | hc
      · exact absurd hc.symm hq
      · rw [firstIdx, if_neg hq, List.length_cons]
        have := ih hc
        omega

theorem keys_counterOf_firstOccur (ps : List Pair) :
    List.Pairwise (fun p q => firstIdx ps p < firstIdx ps q) (keys (counterOf ps)) := by
  induction ps using List.reverseRecOn with
  | nil => simp [counterOf, keys]
  | append_singleton ps p ih =>
    have hco : counterOf (ps ++ [p]) = counterAdd (counterOf ps) p := by
      rw [counterOf, counterOf, List.foldl_append]
      rfl
    rw [hco, keys_counterAdd]
    have hsub : ∀ q, q ∈ keys (counterOf ps) → q ∈ ps := fun q hq =>
      (mem_keys_counterOf ps q).mp hq
    split_ifs with hp
    · refine ih.imp_of_mem ?_
      intro x y hx hy hxy
      rw [firstIdx_append_of_mem _ _ _ (hsub x hx), firstIdx_append_of_mem _ _ _ (hsub y hy)]
      exact hxy
    · rw [List.pairwise_append]
      refine ⟨?_, List.pairwise_singleton _ _, ?_⟩
      · refine ih.imp_of_mem ?_
        intro x y hx hy hxy
        rw [firstIdx_append_of_mem _ _ _ (hsub x hx), firstIdx_append_of_mem _ _ _ (hsub y hy)]
        exact hxy
      · intro x hx q hq
        rcases List.mem_singleton.mp hq with rfl
        have hpnotin : q ∉ ps := fun hc => hp ((mem_keys_counterOf ps q).mpr hc)
        rw [firstIdx_append_of_mem _ _ _ (hsub x hx), firstIdx_append_of_not_mem _ _ _ hpnotin]
        have hxlt : firstIdx ps x < ps.length := firstIdx_lt_length ps x (hsub x hx)
        omega

/-! ### Symbol-table lemmas -/

theorem tabOK_st0 : TabOK st0.table := by
  refine ⟨rfl, rfl, rfl, ?_⟩
  simp [st0]

theorem add_token_of_some (st : TState) (t : Tok) (i : Nat)
    (hl : lookupA st.table.token_to_id t = some i) : add_token st t = st := by
  rw [add_token, hl]

theorem add_token_of_none (st : TState) (t : Tok)
    (hl : lookupA st.table.token_to_id t = none) :
    add_token st t =
      { st with
        vocab := vInsert st.vocab (Sum.inl t)
        table :=
          { token_to_id := st.table.token_to_id ++ [(t, st.table.next_id)]
            id_to_token := st.table.id_to_token ++ [(st.table.next_id, t)]
            next_id := st.table.next_id + 1 } } := by
  rw [add_token, hl]

theorem tabOK_add_token (st : TState) (t : Tok) (h : TabOK st.table) :
    TabOK (add_token st t).table := by
  cases hl : lookupA st.table.token_to_id t with
  | some i => rw [add_token_of_some st t i hl]; exact h
  | none =>
    rw [add_token_of_none st t hl]
    obtain ⟨h1, h2, h3, h4⟩ := h
    refine ⟨?_, ?_, ?_, ?_⟩
    · simp only [List.map_append, h1, h2, List.map_cons, List.map_nil]
    · simp [h2]
    · simp only [List.map_append, h3, h2, List.length_append, List.map_cons, List.map_nil,
        List.length_singleton]
      rw [← List.range_succ]
    · simp only [List.map_append, List.map_cons, List.map_nil]
      rw [List.nodup_append]
      refine ⟨h4, List.nodup_singleton _, ?_⟩
      intro x hx hy
      rcases List.mem_singleton.mp hy with rfl
      exact (lookupA_eq_none _ _).mp hl hx

theorem tabOK_addAll (ts : List Tok) :
    ∀ st : TState, TabOK st.table → TabOK ((ts.foldl add_token st).table) := by
  induction ts with
  | nil => intro st h; exact h
  | cons t ts ih =>
    intro st h
    rw [List.foldl_cons]
    exact ih _ (tabOK_add_token st t h)

theorem addAll_keys_mem (ts : List Tok) :
    ∀ (st : TState) (x : Tok),
      x ∈ (ts.foldl add_token st).table.token_to_id.map Prod.fst
        ↔ x ∈ st.table.token_to_id.map Prod.fst ∨ x ∈ ts := by
  induction ts with
  | nil => intro st x; simp
  | cons t ts ih =>
    intro st x
    rw [List.foldl_cons, ih]
    cases hl : lookupA st.table.token_to_id t with
    | some i =>
      rw [add_token_of_some st t i hl]
      have hmem : t ∈ st.table.token_to_id.map Prod.fst :=
        List.mem_map_of_mem Prod.fst (lookupA_some_mem _ _ _ hl)
      simp only [List.mem_cons]
      constructor
      · rintro (h | h)
        · exact Or.inl h
        · exact Or.inr (Or.inr h)
      · rintro (h | h | h)
        · exact Or.inl h
        · subst h; exact Or.inl hmem
        · exact Or.inr h
    | none =>
      rw [add_token_of_none st t hl]
      simp only [List.map_append, List.mem_append, List.map_cons, List.map_nil,
        List.mem_singleton, List.mem_cons]
      tauto

theorem add_token_idem (st : TState) (t : Tok) :
    add_token (add_token st t) t = add_token st t := by
  cases hl : lookupA st.table.token_to_id t with
  | some i =>
    rw [add_token_of_some st t i hl, add_token_of_some st t i hl]
  | none =>
    have h2 : lookupA (add_token st t).table.token_to_id t = some st.table.next_id := by
      rw [add_token_of_none st t hl]
      exact lookupA_append_key _ _ _ hl
    exact add_token_of_some _ t _ h2

theorem tabOK_ids_nodup (tb : SymTab) (h : TabOK tb) :
    (tb.id_to_token.map Prod.fst).Nodup := by
  obtain ⟨h1, h2, h3, h4⟩ := h
  rw [h1]
  have hm : (tb.token_to_id.map fun e => (e.2, e.1)).map Prod.fst
      = tb.token_to_id.map Prod.snd := by
    rw [List.map_map]
    rfl
  rw [hm, h3]
  exact List.nodup_range _

theorem tabOK_inverse (tb : SymTab) (h : TabOK tb) (t : Tok) (i : Nat) :
    lookupA tb.token_to_id t = some i ↔ lookupA tb.id_to_token i = some t := by
  have hids := tabOK_ids_nodup tb h
  obtain ⟨h1, h2, h3, h4⟩ := h
  rw [lookupA_eq_some_iff _ h4, lookupA_eq_some_iff _ hids, h1]
  constructor
  · intro hm
    exact List.mem_map_of_mem (fun e => (e.2, e.1)) hm
  · intro hm
    obtain ⟨e, he, heq⟩ := List.mem_map.mp hm
    obtain ⟨x, y⟩ := e
    injection heq with hy hx
    subst hy
    subst hx
    exact he

/-! ### Tokenizer lemmas -/

theorem tokenize_nil (v : List (Tok ⊕ Nat)) (t2i : List (Tok × Nat)) :
    tokenize v t2i [] = .ok [] := by
  rw [tokenize]

theorem scanLongest_error (rem : List Char) :
    ∀ (vs : List (Tok ⊕ Nat)) (best : Option Tok), (∃ k, Sum.inr k ∈ vs) →
      scanLongest rem vs best = .error () := by
  intro vs
  induction vs with
  | nil =>
    rintro best ⟨k, hk⟩
    simp at hk
  | cons s vs ih =>
    rintro best ⟨k, hk⟩
    cases s with
    | inr m => rw [scanLongest]
    | inl t =>
      rw [scanLongest]
      apply ih
      rcases List.mem_cons.mp hk with hq | hq
      · cases hq
      · exact ⟨k, hq⟩

theorem tokenize_error_of_inr (v : List (Tok ⊕ Nat)) (t2i : List (Tok × Nat))
    (c : Char) (rest : List Char) (h : ∃ k, Sum.inr k ∈ v) :
    tokenize v t2i (c :: rest) = .error () := by
  rw [tokenize]
  split
  · rfl
  · rename_i tok hscan
    rw [scanLongest_error _ _ _ h] at hscan
    cases hscan
  · rename_i hscan
    rw [scanLongest_error _ _ _ h] at hscan
    cases hscan

/-! ### The claims -/

/-- Claim C1: for every pair `(a, b)` and fresh id `n`, `merge_pair` replaces
every non-overlapping occurrence of `a` immediately followed by `b` in every
encoded word with `n`, scanning each word left to right and consuming both
positions on a match (in `[a, a, a]` only the first two elements merge), and
it returns `True` exactly when at least one occurrence was rewritten; a pair
selected by `most_common` from `get_pairs` always has an occurrence, so
inside the training loop `merge_pair` never returns `False` and the loop
never retries a pair after a `False` return. -/
theorem C1_merge_pair_rewrite (a b n : Nat) (ws : List Word)
    (ha : n ≠ a) (hb : n ≠ b) :
    ((merge_pair a b n ws).1 = true ↔ ∃ w ∈ ws, (a, b) ∈ wordPairs w)
    ∧ ((merge_pair a b n ws).1 = true →
        (merge_pair a b n ws).2 = ws.map (mergeWord a b n))
    ∧ ((merge_pair a b n ws).1 = false →
        (merge_pair a b n ws).2 = ws ∧ ws.map (mergeWord a b n) = ws)
    ∧ (∀ w ∈ (merge_pair a b n ws).2, (a, b) ∉ wordPairs w)
    ∧ mergeWord a a n [a, a, a] = [n, a]
    ∧ (∀ e, mostCommon (get_pairs ws) = some e →
        (merge_pair e.1.1 e.1.2 n ws).1 = true) := by
  refine ⟨merge_pair_fst_iff a b n ws, merge_pair_snd_true a b n ws,
    merge_pair_snd_false a b n ws, ?_, by simp [mergeWord], fun e he => merge_sel_true ws e n he⟩
  intro w hw
  cases hr : (merge_pair a b n ws).1 with
  | true =>
    rw [merge_pair_snd_true a b n ws hr] at hw
    obtain ⟨w₀, hw₀, rfl⟩ := List.mem_map.mp hw
    exact mergeWord_no_pair a b n ha hb w₀
  | false =>
    rw [(merge_pair_snd_false a b n ws hr).1] at hw
    intro hmem
    have : (merge_pair a b n ws).1 = true :=
      (merge_pair_fst_iff a b n ws).mpr ⟨w, hw, hmem⟩
    rw [hr] at this
    cases this

theorem C1_witness :
    (((merge_pair 1 2 5 [[1, 2, 1, 1, 2], [7]]).1 = true
        ↔ ∃ w ∈ [[1, 2, 1, 1, 2], [7]], (1, 2) ∈ wordPairs w)
      ∧ ((merge_pair 1 2 5 [[1, 2, 1, 1, 2], [7]]).1 = true →
          (merge_pair 1 2 5 [[1, 2, 1, 1, 2], [7]]).2
            = [[1, 2, 1, 1, 2], [7]].map (mergeWord 1 2 5))
      ∧ ((merge_pair 1 2 5 [[1, 2, 1, 1, 2], [7]]).1 = false →
          (merge_pair 1 2 5 [[1, 2, 1, 1, 2], [7]]).2 = [[1, 2, 1, 1, 2], [7]]
            ∧ [[1, 2, 1, 1, 2], [7]].map (mergeWord 1 2 5) = [[1, 2, 1, 1, 2], [7]])
      ∧ (∀ w ∈ (merge_pair 1 2 5 [[1, 2, 1, 1, 2], [7]]).2, (1, 2) ∉ wordPairs w)
      ∧ mergeWord 1 1 5 [1, 1, 1] = [5, 1]
      ∧ ∀ e, mostCommon (get_pairs [[1, 2, 1, 1, 2], [7]]) = some e →
          (merge_pair e.1.1 e.1.2 5 [[1, 2, 1, 1, 2], [7]]).1 = true) :=
  C1_merge_pair_rewrite 1 2 5 [[1, 2, 1, 1, 2], [7]] (by decide) (by decide)

/-- Claim C4: under the training invariant on the `vocab` set, the final
vocabulary never exceeds `max initial target`; if the initial count already
meets or exceeds the target the loop changes nothing (zero merges); each
successful merge adds the freshly minted id `len(vocab) +
initial_vocab_size`, which is not yet present, so the count grows by exactly
one; and with the source's own target `50000 - initial_vocab_size` the total
distinct-symbol count stays at or below 50000 whenever it started there. -/
theorem C4_vocab_growth (target V0 fuel : Nat) (st : TState)
    (h : VocabOK V0 st.vocab) :
    (bpeLoop target V0 fuel st).vocab.length ≤ max st.vocab.length target
    ∧ (target ≤ st.vocab.length → bpeLoop target V0 fuel st = st)
    ∧ Sum.inr (st.vocab.length + V0) ∉ st.vocab
    ∧ (vInsert st.vocab (Sum.inr (st.vocab.length + V0))).length = st.vocab.length + 1
    ∧ (st.vocab.length ≤ 50000 →
        (bpeLoop (adjustedVocabSize V0) V0 fuel st).vocab.length ≤ 50000) := by
  refine ⟨(bpeLoop_vocab target V0 fuel st h).1,
    fun hle => bpeLoop_exit_target target V0 fuel st (by omega),
    vocabOK_fresh V0 st.vocab h, (vocabOK_step V0 st.vocab h).2, ?_⟩
  intro h50
  have hb := (bpeLoop_vocab (adjustedVocabSize V0) V0 fuel st h).1
  have hle : adjustedVocabSize V0 ≤ 50000 := by
    rw [adjustedVocabSize]
    omega
  exact le_trans hb (max_le h50 hle)

theorem C4_witness :
    (bpeLoop 10 8 5 demoInit).vocab.length ≤ max demoInit.vocab.length 10
    ∧ (10 ≤ demoInit.vocab.length → bpeLoop 10 8 5 demoInit = demoInit)
    ∧ Sum.inr (demoInit.vocab.length + 8) ∉ demoInit.vocab
    ∧ (vInsert demoInit.vocab (Sum.inr (demoInit.vocab.length + 8))).length
        = demoInit.vocab.length + 1
    ∧ (demoInit.vocab.length ≤ 50000 →
        (bpeLoop (adjustedVocabSize 8) 8 5 demoInit).vocab.length ≤ 50000) :=
  C4_vocab_growth 10 8 5 demoInit (by constructor <;> decide)

/-- Claim C5: training is deterministic.  `most_common(1)` returns exactly
the first counter entry holding the maximal count (`IsFirstMax`); the counter
keys produced by `get_pairs` are ordered by first occurrence in the scan
stream (first word index, then position), so the tie-break among equal counts
is the fixed earliest-first-occurrence rule; and two runs of
`build_vocabulary` on equal inputs return equal states. -/
theorem C5_deterministic_selection :
    (∀ (c : Counter) (e : Pair × Nat), mostCommon c = some e ↔ IsFirstMax c e)
    ∧ (∀ ws : List Word,
        List.Pairwise (fun p q => firstIdx (pairStream ws) p < firstIdx (pairStream ws) q)
          (keys (get_pairs ws)))
    ∧ ∀ (t₁ t₂ V₁ V₂ : Nat) (st₁ st₂ : TState), t₁ = t₂ → V₁ = V₂ → st₁ = st₂ →
        build_vocabulary t₁ V₁ st₁ = build_vocabulary t₂ V₂ st₂ := by
  refine ⟨mostCommon_isFirstMax, ?_, ?_⟩
  · intro ws
    rw [get_pairs_eq]
    exact keys_counterOf_firstOccur (pairStream ws)
  · intro t₁ t₂ V₁ V₂ st₁ st₂ ht hV hst
    rw [ht, hV, hst]

theorem C5_witness :
    (mostCommon [((1, 2), 3), ((4, 5), 3)] = some ((1, 2), 3)
      ↔ IsFirstMax [((1, 2), 3), ((4, 5), 3)] ((1, 2), 3))
    ∧ build_vocabulary 10 8 demoInit = build_vocabulary 10 8 demoInit :=
  ⟨C5_deterministic_selection.1 [((1, 2), 3), ((4, 5), 3)] ((1, 2), 3),
    C5_deterministic_selection.2.2 10 10 8 8 demoInit demoInit rfl rfl rfl⟩

/-- Claim C6: the count `get_pairs` stores for a pair `(a, b)` is exactly the
number of positions `i` with `w[i] = a` and `w[i+1] = b`, summed over all
encoded words, and words of length below two contribute nothing. -/
theorem C6_pair_counts (ws : List Word) (a b : Nat) :
    lookupCount (get_pairs ws) (a, b) = (ws.map fun w => adjCount w a b).sum
    ∧ ∀ w : Word, w.length < 2 → adjCount w a b = 0 := by
  refine ⟨lookupCount_get_pairs_adjCount ws a b, ?_⟩
  intro w hw
  have hz : w.length - 1 = 0 := by omega
  rw [adjCount, hz]
  rfl

theorem C6_witness :
    lookupCount (get_pairs [[1, 2, 1, 2], [3]]) (1, 2)
        = ([[1, 2, 1, 2], [3]].map fun w => adjCount w 1 2).sum
    ∧ adjCount [3] 1 2 = 0 :=
  ⟨(C6_pair_counts [[1, 2, 1, 2], [3]] 1 2).1,
    (C6_pair_counts [[1, 2, 1, 2], [3]] 1 2).2 [3] (by decide)⟩

/-- Claim C8: after any sequence of `add_token` calls starting from the empty
state, `token_to_id` and `id_to_token` are mutually inverse, no token or id
is recorded twice, `next_id` equals the number of distinct tokens ever added,
and adding an already-present token leaves the state unchanged. -/
theorem C8_symbol_table (ts : List Tok) :
    ((addAll ts).table.token_to_id.map Prod.fst).Nodup
    ∧ ((addAll ts).table.id_to_token.map Prod.fst).Nodup
    ∧ (∀ (t : Tok) (i : Nat),
        lookupA (addAll ts).table.token_to_id t = some i
          ↔ lookupA (addAll ts).table.id_to_token i = some t)
    ∧ (addAll ts).table.next_id = ts.toFinset.card
    ∧ ∀ t : Tok, add_token (add_token (addAll ts) t) t = add_token (addAll ts) t := by
  have htab : TabOK (addAll ts).table := tabOK_addAll ts st0 tabOK_st0
  refine ⟨htab.2.2.2, tabOK_ids_nodup _ htab, tabOK_inverse _ htab, ?_,
    fun t => add_token_idem _ t⟩
  have hmem : ∀ x, x ∈ (addAll ts).table.token_to_id.map Prod.fst ↔ x ∈ ts := by
    intro x
    rw [addAll, addAll_keys_mem ts st0 x]
    simp [st0]
  rw [htab.2.1, ← List.length_map (addAll ts).table.token_to_id Prod.fst,
    ← List.toFinset_card_of_nodup htab.2.2.2]
  congr 1
  apply Finset.ext
  intro x
  simp only [List.mem_toFinset]
  exact hmem x

theorem C8_witness :
    (addAll [['a'], ['b'], ['a']]).table.next_id = 2
    ∧ add_token (add_token (addAll [['a'], ['b'], ['a']]) ['c']) ['c']
        = add_token (addAll [['a'], ['b'], ['a']]) ['c'] := by
  constructor
  · rw [(C8_symbol_table [['a'], ['b'], ['a']]).2.2.2.1]
    decide
  · exact (C8_symbol_table [['a'], ['b'], ['a']]).2.2.2.2 ['c']

/-- Claim C9: the reported compression ratio is the initial total unit count
divided by the final total token count, and is 0 when the final count is 0,
so the computation is total (never a division failure). -/
theorem C9_compression_ratio (init V0 : Nat) (st : TState) :
    ((get_stats init V0 st).final_tokens = 0 → (get_stats init V0 st).compression_ratio = 0)
    ∧ ((get_stats init V0 st).final_tokens ≠ 0 →
        (get_stats init V0 st).compression_ratio * ((get_stats init V0 st).final_tokens : ℚ)
          = (init : ℚ))
    ∧ (get_stats init V0 st).compression_ratio
        = if totalLen st.words = 0 then 0 else (init : ℚ) / (totalLen st.words : ℚ) := by
  by_cases h : totalLen st.words = 0
  · refine ⟨fun _ => by simp [get_stats, h], fun hne => ?_, by simp [get_stats, h]⟩
    exact absurd (by simp [get_stats, h]) hne
  · have hpos : 0 < totalLen st.words := Nat.pos_of_ne_zero h
    have hq : ((totalLen st.words : ℚ)) ≠ 0 := by
      exact_mod_cast h
    refine ⟨fun h0 => absurd (by simpa [get_stats] using h0) h, fun hne => ?_, ?_⟩
    · simp only [get_stats, if_pos hpos]
      exact div_mul_cancel₀ _ hq
    · simp [get_stats, hpos, h]

theorem C9_witness :
    (get_stats 4 8 demoTrained).compression_ratio
        * ((get_stats 4 8 demoTrained).final_tokens : ℚ) = (4 : ℚ)
    ∧ (get_stats 7 0 st0).compression_ratio = 0 :=
  ⟨(C9_compression_ratio 4 8 demoTrained).2.1 (by decide),
    (C9_compression_ratio 7 0 st0).1 (by decide)⟩

/-- Claim C10: a successful merge shrinks the total number of symbol
positions by exactly the number of occurrences replaced, which is at least
one, so the corpus strictly shrinks; consequently the training loop
stabilises — any fuel beyond the total corpus length yields the same final
state, i.e. only finitely many merges happen on a finite corpus. -/
theorem C10_merge_terminates (a b n : Nat) (ws : List Word)
    (target V0 : Nat) (st : TState) :
    ((merge_pair a b n ws).1 = true →
      totalLen (merge_pair a b n ws).2 + totalMatches a b ws = totalLen ws
      ∧ 1 ≤ totalMatches a b ws
      ∧ totalLen (merge_pair a b n ws).2 < totalLen ws)
    ∧ ∀ f₁ f₂ : Nat, totalLen st.words < f₁ → totalLen st.words < f₂ →
        bpeLoop target V0 f₁ st = bpeLoop target V0 f₂ st := by
  constructor
  · intro hr
    have hsnd := merge_pair_snd_true a b n ws hr
    have hlen := totalLen_merge a b n ws
    have hpos := totalMatches_pos a b n ws hr
    rw [hsnd]
    exact ⟨by omega, hpos, by omega⟩
  · exact bpeLoop_stable target V0 st

theorem C10_witness :
    (totalLen (merge_pair 1 2 9 [[1, 2]]).2 + totalMatches 1 2 [[1, 2]] = totalLen [[1, 2]]
      ∧ 1 ≤ totalMatches 1 2 [[1, 2]]
      ∧ totalLen (merge_pair 1 2 9 [[1, 2]]).2 < totalLen [[1, 2]])
    ∧ bpeLoop 10 8 5 demoInit = bpeLoop 10 8 6 demoInit :=
  ⟨(C10_merge_terminates 1 2 9 [[1, 2]] 10 8 demoInit).1 (by decide),
    (C10_merge_terminates 1 2 9 [[1, 2]] 10 8 demoInit).2 5 6 (by decide) (by decide)⟩

/-- Claim C2 (code bug): after any successful merge, `build_vocabulary` has
put a raw integer id into the `vocab` set; `tokenize` then applies
`str.startswith` to that integer on every non-empty input and raises
`TypeError` — modelled as `Except.error` — instead of returning ids.  With a
string-only vocabulary the longest-match and `<unk>` policies do work: the
unseen character `'z'` maps to the `<unk>` id 3 rather than failing. -/
theorem C2_tokenize_raises :
    Sum.inr 16 ∈ demoTrained.vocab
    ∧ tokenize demoTrained.vocab demoInit.table.token_to_id ['a'] = .error ()
    ∧ tokenize demoInit.vocab demoInit.table.token_to_id ['z'] = .ok [3] := by
  have hmem : Sum.inr (16 : Nat) ∈ demoTrained.vocab := (vMem_iff _ _).mp (by decide)
  refine ⟨hmem, tokenize_error_of_inr _ _ _ _ ⟨16, hmem⟩, ?_⟩
  rw [tokenize]
  simp [scanLongest, startsWith, bestLen, lookupA, unkTok, tokenize_nil]
  decide

/-- Claim C3 (code bug): the training loop never touches the symbol table and
records no merge rules: the table passes through `bpeLoop` unchanged, and in
the demo run that mints id 16, the trained state still has the initial table,
id 16 has no surface string and the concatenation `"ab"` of the merged
symbols is not registered in either direction. -/
theorem C3_no_registration :
    (∀ (target V0 fuel : Nat) (st : TState), (bpeLoop target V0 fuel st).table = st.table)
    ∧ demoTrained.table = demoInit.table
    ∧ demoTrained.vocab = demoInit.vocab ++ [Sum.inr 16]
    ∧ lookupA demoTrained.table.id_to_token 16 = none
    ∧ lookupA demoTrained.table.token_to_id ['a', 'b'] = none :=
  ⟨bpeLoop_table, by decide, by decide, by decide, by decide⟩

/-- Claim C7 (code bug): with the string-only initial vocabulary the
round-trip does hold — `tokenize "ab" = [6, 7]` and the surface strings of
ids 6 and 7 concatenate back to `"ab"` — and both characters were seen in
training, but the actual trained vocabulary contains the raw id 16, so on the
same fully-seen input `tokenize` raises instead of returning tokens whose
surfaces reconstruct the text. -/
theorem C7_roundtrip_broken :
    tokenize demoInit.vocab demoInit.table.token_to_id ['a', 'b'] = .ok [6, 7]
    ∧ ([6, 7].filterMap fun i => lookupA demoInit.table.id_to_token i).flatten = ['a', 'b']
    ∧ vMem demoInit.vocab (Sum.inl ['a']) = true
    ∧ vMem demoInit.vocab (Sum.inl ['b']) = true
    ∧ tokenize demoTrained.vocab demoInit.table.token_to_id ['a', 'b'] = .error () := by
  refine ⟨?_, by decide, by decide, by decide, ?_⟩
  · rw [tokenize]
    simp [scanLongest, startsWith, bestLen, lookupA, unkTok]
    rw [tokenize]
    simp [scanLongest, startsWith, bestLen, lookupA, unkTok, tokenize_nil]
    decide
  · exact tokenize_error_of_inr _ _ _ _ ⟨16, (vMem_iff _ _).mp (by decide)⟩

end HindiTok
